import Mathlib

/-!
Shallow embedding of `src/password_generator.py` (Secure Password Generator).

The randomness source (`random.choice`, `random.shuffle`) is modelled as an
explicit stream `r : Nat → Nat` of draws; draw number `k` used against a
collection of size `n` yields index `r k % n`, which models an arbitrary
value below `n` produced by the generator.  `random.shuffle` is the
Fisher-Yates loop of CPython: for `i` from `n - 1` down to `1`, pick
`j < i + 1` and swap positions `i` and `j`.

`generate_secure_password` returns `Option String`: `none` models the
Python function returning `None` for lengths below 4.
-/

namespace PasswordGenerator

/-- The constant `string.ascii_lowercase`. -/
def lowercase_chars : List Char := "abcdefghijklmnopqrstuvwxyz".toList

/-- The constant `string.ascii_uppercase`. -/
def uppercase_chars : List Char := "ABCDEFGHIJKLMNOPQRSTUVWXYZ".toList

/-- The constant `string.digits`. -/
def digits : List Char := "0123456789".toList

/-- The constant `string.punctuation`: the 32 ASCII punctuation characters,
i.e. the printable ASCII characters that are neither letters, digits nor
space. Their code points are 33-47, 58-64, 91-96 and 123-126. -/
def special_chars : List Char :=
  (List.range 15).map (fun i => Char.ofNat (33 + i)) ++
  (List.range 7).map (fun i => Char.ofNat (58 + i)) ++
  (List.range 6).map (fun i => Char.ofNat (91 + i)) ++
  (List.range 4).map (fun i => Char.ofNat (123 + i))

/-- The combined pool `all_chars`, built in the source as
`lowercase_chars + uppercase_chars + digits + special_chars`. -/
def all_chars : List Char :=
  lowercase_chars ++ uppercase_chars ++ digits ++ special_chars

/-- Model of `random.choice(l)` where the generator produced the draw `r`:
the element at index `r % len(l)`. -/
def choice (r : Nat) (l : List Char) : Char := l.getD (r % l.length) ' '

/-- One swap of the Fisher-Yates loop: exchange positions `i` and `j`. -/
def listSwap (l : List Char) (i j : Nat) : List Char :=
  (l.set i (l.getD j ' ')).set j (l.getD i ' ')

/-- The Fisher-Yates loop of `random.shuffle`, unrolled from the highest
index down: `fyAux r base i l` performs the iterations for positions
`i, i - 1, ..., 1`, consuming draws `base, base + 1, ...`. -/
def fyAux (r : Nat → Nat) (base : Nat) : Nat → List Char → List Char
  | 0, l => l
  | i + 1, l => fyAux r (base + 1) i (listSwap l (i + 1) (r base % (i + 2)))

/-- Model of `random.shuffle(l)`, consuming draws `base, base + 1, ...`. -/
def shuffle (r : Nat → Nat) (base : Nat) (l : List Char) : List Char :=
  fyAux r base (l.length - 1) l

/-- The local `password_list` right after the four guaranteed picks
(lines 28-33 of the source): one `random.choice` from each class,
consuming draws 0-3. -/
def password_list (r : Nat → Nat) : List Char :=
  [choice (r 0) lowercase_chars,
   choice (r 1) uppercase_chars,
   choice (r 2) digits,
   choice (r 3) special_chars]

/-- The characters appended by the fill loop (lines 37-38 of the source):
`n` iterations of `password_list.append(random.choice(all_chars))`,
consuming draws `4, ..., 4 + n - 1`. -/
def fill_chars (r : Nat → Nat) (n : Nat) : List Char :=
  (List.range n).map (fun i => choice (r (4 + i)) all_chars)

/-- Model of `generate_secure_password` from `src/password_generator.py`.
The guard returns `none` (Python `None`) for `length < 4`; otherwise the
four guaranteed picks and `length - 4` fill characters are shuffled and
joined to a string. -/
def generate_secure_password (r : Nat → Nat) (length : Int) : Option String :=
  if length < 4 then none
  else
    some (String.mk (shuffle r (4 + (length - 4).toNat)
      (password_list r ++ fill_chars r (length - 4).toNat)))

/-! ### Helper lemmas -/

theorem length_listSwap (l : List Char) (i j : Nat) :
    (listSwap l i j).length = l.length := by
  simp [listSwap]

theorem getD_cons_set_perm :
    ∀ (l : List Char) (k : Nat) (a : Char), k < l.length →
      List.Perm (l.getD k ' ' :: l.set k a) (a :: l)
  | [], k, a, h => by simp at h
  | b :: t, 0, a, _ => by
      simpa using List.Perm.swap a b t
  | b :: t, k + 1, a, h => by
      have hk : k < t.length := by simpa using h
      exact List.Perm.trans (List.Perm.swap b _ _)
        (List.Perm.trans (List.Perm.cons b (getD_cons_set_perm t k a hk))
          (List.Perm.swap a b t))

theorem listSwap_perm :
    ∀ (l : List Char) (i j : Nat), i < l.length → j < l.length →
      List.Perm (listSwap l i j) l
  | [], i, j, hi, _ => by simp at hi
  | b :: t, 0, 0, _, _ => by simp [listSwap]
  | b :: t, 0, j + 1, _, hj => by
      have hj' : j < t.length := by simpa using hj
      simpa [listSwap] using getD_cons_set_perm t j b hj'
  | b :: t, i + 1, 0, hi, _ => by
      have hi' : i < t.length := by simpa using hi
      simpa [listSwap] using getD_cons_set_perm t i b hi'
  | b :: t, i + 1, j + 1, hi, hj => by
      have hi' : i < t.length := by simpa using hi
      have hj' : j < t.length := by simpa using hj
      simpa [listSwap] using List.Perm.cons b (listSwap_perm t i j hi' hj')

theorem length_fyAux (r : Nat → Nat) :
    ∀ (i base : Nat) (l : List Char), (fyAux r base i l).length = l.length
  | 0, _, _ => rfl
  | i + 1, base, l => by
      rw [fyAux, length_fyAux r i (base + 1), length_listSwap]

theorem fyAux_perm (r : Nat → Nat) :
    ∀ (i base : Nat) (l : List Char), i < l.length →
      List.Perm (fyAux r base i l) l
  | 0, _, _, _ => List.Perm.refl _
  | i + 1, base, l, h => by
      have hlen : (listSwap l (i + 1) (r base % (i + 2))).length = l.length :=
        length_listSwap l _ _
      have hj : r base % (i + 2) < l.length :=
        lt_of_lt_of_le (Nat.mod_lt _ (by omega)) (by omega)
      exact List.Perm.trans
        (fyAux_perm r i (base + 1) _ (by rw [hlen]; omega))
        (listSwap_perm l (i + 1) _ h hj)

theorem length_shuffle (r : Nat → Nat) (base : Nat) (l : List Char) :
    (shuffle r base l).length = l.length :=
  length_fyAux r (l.length - 1) base l

theorem shuffle_perm (r : Nat → Nat) (base : Nat) (l : List Char) :
    List.Perm (shuffle r base l) l := by
  cases l with
  | nil => exact List.Perm.refl _
  | cons a t => exact fyAux_perm r t.length base (a :: t) (by simp)

theorem choice_mem (r : Nat) (l : List Char) (h : l ≠ []) : choice r l ∈ l := by
  have hlen : 0 < l.length := List.length_pos.mpr h
  have hlt : r % l.length < l.length := Nat.mod_lt _ hlen
  rw [choice, List.getD_eq_getElem l ' ' hlt]
  exact List.getElem_mem hlt

theorem generate_eq (r : Nat → Nat) (L : Int) (h : ¬ L < 4) :
    generate_secure_password r L =
      some (String.mk (shuffle r (4 + (L - 4).toNat)
        (password_list r ++ fill_chars r (L - 4).toNat))) := by
  simp [generate_secure_password, h]

theorem generate_some (r : Nat → Nat) (L : Int) (s : String)
    (hs : generate_secure_password r L = some s) :
    4 ≤ L ∧ s.toList = shuffle r (4 + (L - 4).toNat)
      (password_list r ++ fill_chars r (L - 4).toNat) := by
  by_cases h : L < 4
  · simp [generate_secure_password, h] at hs
  · rw [generate_eq r L h] at hs
    refine ⟨by omega, ?_⟩
    cases hs
    rfl

theorem lowercase_chars_ne_nil : lowercase_chars ≠ [] := by decide

theorem uppercase_chars_ne_nil : uppercase_chars ≠ [] := by decide

theorem digits_ne_nil : digits ≠ [] := by decide

theorem special_chars_ne_nil : special_chars ≠ [] := by decide

theorem all_chars_ne_nil : all_chars ≠ [] := by decide

theorem mem_all_chars_of_class (c : Char)
    (h : c ∈ lowercase_chars ∨ c ∈ uppercase_chars ∨ c ∈ digits ∨
      c ∈ special_chars) : c ∈ all_chars := by
  simp only [all_chars, List.mem_append]
  tauto

theorem mem_fill_chars (r : Nat → Nat) (n : Nat) (c : Char)
    (h : c ∈ fill_chars r n) : c ∈ all_chars := by
  simp only [fill_chars, List.mem_map, List.mem_range] at h
  obtain ⟨i, _, rfl⟩ := h
  exact choice_mem _ _ all_chars_ne_nil

theorem generate_mem_all_chars (r : Nat → Nat) (L : Int) (s : String)
    (hs : generate_secure_password r L = some s) :
    ∀ c ∈ s.toList, c ∈ all_chars := by
  obtain ⟨hL, htl⟩ := generate_some r L s hs
  intro c hc
  rw [htl] at hc
  rcases List.mem_append.mp ((shuffle_perm r _ _).mem_iff.mp hc) with h | h
  · simp only [password_list, List.mem_cons, List.not_mem_nil, or_false] at h
    rcases h with rfl | rfl | rfl | rfl
    · exact mem_all_chars_of_class _ (Or.inl (choice_mem _ _ lowercase_chars_ne_nil))
    · exact mem_all_chars_of_class _ (Or.inr (Or.inl (choice_mem _ _ uppercase_chars_ne_nil)))
    · exact mem_all_chars_of_class _ (Or.inr (Or.inr (Or.inl (choice_mem _ _ digits_ne_nil))))
    · exact mem_all_chars_of_class _ (Or.inr (Or.inr (Or.inr (choice_mem _ _ special_chars_ne_nil))))
  · exact mem_fill_chars r _ c h

theorem length_fill_chars (r : Nat → Nat) (n : Nat) :
    (fill_chars r n).length = n := by
  simp [fill_chars]

theorem length_password_list (r : Nat → Nat) : (password_list r).length = 4 := by
  simp [password_list]

/-! ### Claim theorems -/

/-- C1: for every integer length L at least 4, `generate_secure_password(L)`
returns a string whose length equals L exactly. -/
theorem generate_length_eq_requested (r : Nat → Nat) (L : Int) (h : 4 ≤ L)
    (s : String) (hs : generate_secure_password r L = some s) :
    (s.length : Int) = L := by
  obtain ⟨-, htl⟩ := generate_some r L s hs
  have hlen : s.length = s.toList.length := rfl
  rw [hlen, htl, length_shuffle, List.length_append, length_password_list,
    length_fill_chars]
  have h4 : ((L - 4).toNat : Int) = L - 4 := Int.toNat_of_nonneg (by omega)
  push_cast
  omega

/-- Witness for C1 at length 5 with the all-zeros draw stream. -/
theorem generate_length_eq_requested_witness :
    ((("A0!aa" : String).length : Int)) = 5 :=
  generate_length_eq_requested (fun _ => 0) 5 (by decide) "A0!aa" (by decide)

/-- C3: `generate_secure_password(length)` fails with the failure value
(`None`, modelled as `none`) if and only if `length < 4`, and for every
length at least 4 it returns a string, never the failure value. -/
theorem generate_none_iff_invalid_length (r : Nat → Nat) (L : Int) :
    (generate_secure_password r L = none ↔ L < 4) ∧
    ((generate_secure_password r L).isSome = true ↔ 4 ≤ L) := by
  by_cases h : L < 4
  · simp only [generate_secure_password, if_pos h, Option.isSome_none]
    constructor
    · simp [h]
    · constructor
      · intro hfalse
        exact absurd hfalse (by simp)
      · intro h4
        omega
  · simp only [generate_secure_password, if_neg h, Option.isSome_some]
    constructor
    · simp
      omega
    · simp
      omega

/-- C6: every character of every string returned by
`generate_secure_password` lies in the union of the four character
classes. -/
theorem generate_chars_in_union (r : Nat → Nat) (L : Int) (s : String)
    (hs : generate_secure_password r L = some s) :
    ∀ c ∈ s.toList, c ∈ all_chars :=
  generate_mem_all_chars r L s hs

/-- Witness for C6: the first character of the password generated at
length 4 from the all-zeros draw stream is in the combined pool. -/
theorem generate_chars_in_union_witness : ('A' : Char) ∈ all_chars :=
  generate_chars_in_union (fun _ => 0) 4 "A0!a" (by decide) 'A' (by decide)

/-- C9: `generate_secure_password` is total on the integers: for every
length it terminates with a definite result, `none` exactly below 4 and a
string otherwise (at length 4 the fill loop runs zero times; for negative
lengths the guard fires before any loop). -/
theorem generate_total (r : Nat → Nat) (L : Int) :
    (L < 4 ∧ generate_secure_password r L = none) ∨
    (4 ≤ L ∧ ∃ s, generate_secure_password r L = some s) := by
  by_cases h : L < 4
  · exact Or.inl ⟨h, by simp [generate_secure_password, h]⟩
  · exact Or.inr ⟨by omega, ⟨_, generate_eq r L h⟩⟩

/-- C2: every password generated at a length of at least 4 contains at
least one character from each of the four classes, whatever the draws. -/
theorem generate_contains_each_class (r : Nat → Nat) (L : Int) (_h : 4 ≤ L)
    (s : String) (hs : generate_secure_password r L = some s) :
    (∃ c ∈ s.toList, c ∈ lowercase_chars) ∧
    (∃ c ∈ s.toList, c ∈ uppercase_chars) ∧
    (∃ c ∈ s.toList, c ∈ digits) ∧
    (∃ c ∈ s.toList, c ∈ special_chars) := by
  obtain ⟨-, htl⟩ := generate_some r L s hs
  have hperm := shuffle_perm r (4 + (L - 4).toNat)
    (password_list r ++ fill_chars r (L - 4).toNat)
  rw [htl]
  refine ⟨⟨choice (r 0) lowercase_chars, ?_, choice_mem _ _ lowercase_chars_ne_nil⟩,
    ⟨choice (r 1) uppercase_chars, ?_, choice_mem _ _ uppercase_chars_ne_nil⟩,
    ⟨choice (r 2) digits, ?_, choice_mem _ _ digits_ne_nil⟩,
    ⟨choice (r 3) special_chars, ?_, choice_mem _ _ special_chars_ne_nil⟩⟩ <;>
  · exact hperm.mem_iff.mpr (by simp [password_list])

/-- Witness for C2 at length 4 with the all-zeros draw stream. -/
theorem generate_contains_each_class_witness :
    (∃ c ∈ ("A0!a" : String).toList, c ∈ lowercase_chars) ∧
    (∃ c ∈ ("A0!a" : String).toList, c ∈ uppercase_chars) ∧
    (∃ c ∈ ("A0!a" : String).toList, c ∈ digits) ∧
    (∃ c ∈ ("A0!a" : String).toList, c ∈ special_chars) :=
  generate_contains_each_class (fun _ => 0) 4 (by decide) "A0!a" (by decide)

/-- C4: the returned string is a permutation of one choice from each of
the four classes followed by length - 4 characters from the combined
pool, joined to a string. -/
theorem generate_algorithm_structure (r : Nat → Nat) (L : Int) (s : String)
    (hs : generate_secure_password r L = some s) :
    List.Perm s.toList (password_list r ++ fill_chars r (L - 4).toNat) ∧
    choice (r 0) lowercase_chars ∈ lowercase_chars ∧
    choice (r 1) uppercase_chars ∈ uppercase_chars ∧
    choice (r 2) digits ∈ digits ∧
    choice (r 3) special_chars ∈ special_chars ∧
    (fill_chars r (L - 4).toNat).length = (L - 4).toNat ∧
    ∀ c ∈ fill_chars r (L - 4).toNat, c ∈ all_chars := by
  obtain ⟨-, htl⟩ := generate_some r L s hs
  refine ⟨htl ▸ shuffle_perm r _ _,
    choice_mem _ _ lowercase_chars_ne_nil,
    choice_mem _ _ uppercase_chars_ne_nil,
    choice_mem _ _ digits_ne_nil,
    choice_mem _ _ special_chars_ne_nil,
    length_fill_chars r _,
    fun c hc => mem_fill_chars r _ c hc⟩

/-- Witness for C4 at length 4 with the all-zeros draw stream. -/
theorem generate_algorithm_structure_witness :
    List.Perm ("A0!a" : String).toList
      (password_list (fun _ => 0) ++ fill_chars (fun _ => 0) ((4 - 4 : Int)).toNat) ∧
    choice 0 lowercase_chars ∈ lowercase_chars ∧
    choice 0 uppercase_chars ∈ uppercase_chars ∧
    choice 0 digits ∈ digits ∧
    choice 0 special_chars ∈ special_chars ∧
    (fill_chars (fun _ => 0) ((4 - 4 : Int)).toNat).length = ((4 - 4 : Int)).toNat ∧
    ∀ c ∈ fill_chars (fun _ => 0) ((4 - 4 : Int)).toNat, c ∈ all_chars :=
  generate_algorithm_structure (fun _ => 0) 4 "A0!a" (by decide)

/-! ### Disjointness of the four classes -/

theorem upper_not_mem_lower : ∀ c ∈ uppercase_chars, c ∉ lowercase_chars := by decide

theorem digit_not_mem_lower : ∀ c ∈ digits, c ∉ lowercase_chars := by decide

theorem special_not_mem_lower : ∀ c ∈ special_chars, c ∉ lowercase_chars := by decide

theorem lower_not_mem_upper : ∀ c ∈ lowercase_chars, c ∉ uppercase_chars := by decide

theorem digit_not_mem_upper : ∀ c ∈ digits, c ∉ uppercase_chars := by decide

theorem special_not_mem_upper : ∀ c ∈ special_chars, c ∉ uppercase_chars := by decide

theorem lower_not_mem_digits : ∀ c ∈ lowercase_chars, c ∉ digits := by decide

theorem upper_not_mem_digits : ∀ c ∈ uppercase_chars, c ∉ digits := by decide

theorem special_not_mem_digits : ∀ c ∈ special_chars, c ∉ digits := by decide

theorem lower_not_mem_special : ∀ c ∈ lowercase_chars, c ∉ special_chars := by decide

theorem upper_not_mem_special : ∀ c ∈ uppercase_chars, c ∉ special_chars := by decide

theorem digit_not_mem_special : ∀ c ∈ digits, c ∉ special_chars := by decide

/-- Number of characters of `s` that belong to the class `cls`. -/
def countClass (cls : List Char) (s : String) : Nat :=
  s.toList.countP (fun c => decide (c ∈ cls))

/-- C5: at the minimum length 4 the fill loop runs zero times, so the
password is a 4-character string holding exactly one character of each
class, in the order the shuffle produced. -/
theorem generate_four_exactly_one_each (r : Nat → Nat) (s : String)
    (hs : generate_secure_password r 4 = some s) :
    s.length = 4 ∧
    countClass lowercase_chars s = 1 ∧
    countClass uppercase_chars s = 1 ∧
    countClass digits s = 1 ∧
    countClass special_chars s = 1 := by
  obtain ⟨-, htl⟩ := generate_some r 4 s hs
  have hfill : fill_chars r ((4 - 4 : Int)).toNat = [] := by
    norm_num [fill_chars]
  rw [hfill, List.append_nil] at htl
  have hperm : List.Perm s.toList (password_list r) := htl ▸ shuffle_perm r _ _
  have hlen : s.length = 4 := by
    have hl := hperm.length_eq
    rw [length_password_list] at hl
    exact hl
  have m0 := choice_mem (r 0) lowercase_chars lowercase_chars_ne_nil
  have m1 := choice_mem (r 1) uppercase_chars uppercase_chars_ne_nil
  have m2 := choice_mem (r 2) digits digits_ne_nil
  have m3 := choice_mem (r 3) special_chars special_chars_ne_nil
  refine ⟨hlen, ?_, ?_, ?_, ?_⟩
  · rw [countClass, hperm.countP_eq, password_list]
    simp [List.countP_cons, decide_eq_true_eq, m0, upper_not_mem_lower _ m1,
      digit_not_mem_lower _ m2, special_not_mem_lower _ m3]
  · rw [countClass, hperm.countP_eq, password_list]
    simp [List.countP_cons, decide_eq_true_eq, m1, lower_not_mem_upper _ m0,
      digit_not_mem_upper _ m2, special_not_mem_upper _ m3]
  · rw [countClass, hperm.countP_eq, password_list]
    simp [List.countP_cons, decide_eq_true_eq, m2, lower_not_mem_digits _ m0,
      upper_not_mem_digits _ m1, special_not_mem_digits _ m3]
  · rw [countClass, hperm.countP_eq, password_list]
    simp [List.countP_cons, decide_eq_true_eq, m3, lower_not_mem_special _ m0,
      upper_not_mem_special _ m1, digit_not_mem_special _ m2]

/-- Witness for C5 with the all-zeros draw stream. -/
theorem generate_four_exactly_one_each_witness :
    ("A0!a" : String).length = 4 ∧
    countClass lowercase_chars "A0!a" = 1 ∧
    countClass uppercase_chars "A0!a" = 1 ∧
    countClass digits "A0!a" = 1 ∧
    countClass special_chars "A0!a" = 1 :=
  generate_four_exactly_one_each (fun _ => 0) "A0!a" (by decide)

/-- Number of draws `generate_secure_password` consumes at a valid
length: `4 + (L - 4)` choices followed by `4 + (L - 4) - 1` shuffle
draws. -/
def numDraws (L : Int) : Nat :=
  (4 + (L - 4).toNat) + (4 + (L - 4).toNat - 1)

theorem fyAux_congr (r1 r2 : Nat → Nat) :
    ∀ (i base : Nat) (l : List Char),
      (∀ k, base ≤ k → k < base + i → r1 k = r2 k) →
      fyAux r1 base i l = fyAux r2 base i l
  | 0, _, _, _ => rfl
  | i + 1, base, l, h => by
      rw [fyAux, fyAux, h base (le_refl base) (by omega),
        fyAux_congr r1 r2 i (base + 1) _ (fun k hk1 hk2 => h k (by omega) (by omega))]

/-- C7: `generate_secure_password` is a pure function of the length and
the randomness source: two runs that draw the same values return the same
string. -/
theorem generate_deterministic (r1 r2 : Nat → Nat) (L : Int)
    (h : ∀ k, k < numDraws L → r1 k = r2 k) :
    generate_secure_password r1 L = generate_secure_password r2 L := by
  by_cases hL : L < 4
  · simp [generate_secure_password, hL]
  · rw [generate_eq r1 L hL, generate_eq r2 L hL]
    have hlist : password_list r1 ++ fill_chars r1 (L - 4).toNat =
        password_list r2 ++ fill_chars r2 (L - 4).toNat := by
      have h0 := h 0 (by simp [numDraws])
      have h1 := h 1 (by simp [numDraws]; omega)
      have h2 := h 2 (by simp [numDraws]; omega)
      have h3 := h 3 (by simp [numDraws]; omega)
      rw [password_list, password_list, h0, h1, h2, h3, fill_chars, fill_chars,
        List.map_congr_left]
      intro i hi
      rw [List.mem_range] at hi
      rw [h (4 + i) (by simp [numDraws]; omega)]
    rw [hlist, shuffle, shuffle, fyAux_congr r1 r2]
    intro k hk1 hk2
    apply h
    rw [List.length_append, length_password_list, length_fill_chars] at hk2
    simp only [numDraws]
    omega

/-- Witness for C7: two streams that agree on the 7 draws consumed at
length 4 yield the same password, though they differ elsewhere. -/
theorem generate_deterministic_witness :
    generate_secure_password (fun _ => 0) 4 =
      generate_secure_password (fun k => if k < 7 then 0 else 99) 4 :=
  generate_deterministic (fun _ => 0) (fun k => if k < 7 then 0 else 99) 4
    (by
      intro k hk
      have hk7 : k < 7 := by
        simpa [numDraws] using hk
      simp [hk7])

/-- Draw stream for a fill count of `n` whose shuffle draws realise the
identity permutation: choice and fill draws are 0, and the draw for the
shuffle step handling position `i` is `i` itself, so `j = i` at every
step. -/
def idDrawStream (n : Nat) : Nat → Nat :=
  fun k => if k < 4 + n then 0 else (n + 3) - (k - (4 + n))

/-- Draw stream identical to `idDrawStream n` except at the shuffle step
handling position 3 (draw index `(4 + n) + n`), where it draws 0, so that
step swaps positions 3 and 0. -/
def swap3DrawStream (n : Nat) : Nat → Nat :=
  fun k => if k = (4 + n) + n then 0 else idDrawStream n k

theorem set_getD_self :
    ∀ (l : List Char) (i : Nat), i < l.length → l.set i (l.getD i ' ') = l
  | [], _, h => absurd h (by simp)
  | _ :: _, 0, _ => rfl
  | a :: t, i + 1, h => by
      have h' : i < t.length := by simpa using h
      show a :: t.set i (t.getD i ' ') = a :: t
      rw [set_getD_self t i h']

theorem listSwap_self (l : List Char) (i : Nat) (h : i < l.length) :
    listSwap l i i = l := by
  rw [listSwap, set_getD_self l i h, set_getD_self l i h]

/-- A Fisher-Yates run whose every draw equals the position it handles
leaves the list unchanged. -/
theorem fyAux_id :
    ∀ (i base : Nat) (l : List Char) (r : Nat → Nat), i < l.length →
      (∀ t, t < i → r (base + t) = i - t) → fyAux r base i l = l
  | 0, _, _, _, _, _ => rfl
  | i + 1, base, l, r, h, hr => by
      have h0 : r base = i + 1 := by simpa using hr 0 (by omega)
      rw [fyAux, h0, Nat.mod_eq_of_lt (by omega), listSwap_self l (i + 1) h]
      exact fyAux_id i (base + 1) l r (by omega) (fun t ht => by
        have hidx : base + 1 + t = base + (t + 1) := by omega
        rw [hidx, hr (t + 1) (by omega)]
        omega)

/-- A Fisher-Yates run whose draws equal the handled position except at
position 3, where the draw is 0, swaps positions 3 and 0 and changes
nothing else. -/
theorem fyAux_swap3 :
    ∀ (i base : Nat) (l : List Char) (r : Nat → Nat), i < l.length → 3 ≤ i →
      (∀ t, t < i - 3 → r (base + t) = i - t) →
      r (base + (i - 3)) = 0 →
      (∀ t, i - 3 < t → t < i → r (base + t) = i - t) →
      fyAux r base i l = listSwap l 3 0
  | 0, _, _, _, _, h3, _, _, _ => absurd h3 (by omega)
  | 1, _, _, _, _, h3, _, _, _ => absurd h3 (by omega)
  | 2, _, _, _, _, h3, _, _, _ => absurd h3 (by omega)
  | 3, base, l, r, h, _, _, hr0, hr2 => by
      have h0 : r base = 0 := by simpa using hr0
      rw [fyAux, h0, Nat.zero_mod]
      exact fyAux_id 2 (base + 1) (listSwap l 3 0) r
        (by rw [length_listSwap]; omega)
        (fun t ht => by
          have hidx : base + 1 + t = base + (t + 1) := by omega
          rw [hidx, hr2 (t + 1) (by omega) (by omega)]
          omega)
  | i + 4, base, l, r, h, _, hr1, hr0, hr2 => by
      have h0 : r base = i + 4 := by simpa using hr1 0 (by omega)
      rw [fyAux, h0, Nat.mod_eq_of_lt (by omega), listSwap_self l (i + 4) h]
      exact fyAux_swap3 (i + 3) (base + 1) l r (by omega) (by omega)
        (fun t ht => by
          have hidx : base + 1 + t = base + (t + 1) := by omega
          rw [hidx, hr1 (t + 1) (by omega)]
          omega)
        (by
          have hidx : base + 1 + (i + 3 - 3) = base + (i + 4 - 3) := by omega
          rw [hidx]
          exact hr0)
        (fun t ht1 ht2 => by
          have hidx : base + 1 + t = base + (t + 1) := by omega
          rw [hidx, hr2 (t + 1) (by omega) (by omega)]
          omega)

theorem idDrawStream_lt (n k : Nat) (hk : k < 4 + n) : idDrawStream n k = 0 := by
  simp [idDrawStream, hk]

theorem idDrawStream_ge (n k : Nat) (hk : 4 + n ≤ k) :
    idDrawStream n k = (n + 3) - (k - (4 + n)) := by
  simp only [idDrawStream]
  rw [if_neg (by omega)]

theorem swap3DrawStream_ne (n k : Nat) (hk : k ≠ (4 + n) + n) :
    swap3DrawStream n k = idDrawStream n k := by
  simp only [swap3DrawStream]
  rw [if_neg hk]

theorem swap3DrawStream_hit (n : Nat) : swap3DrawStream n ((4 + n) + n) = 0 := by
  simp [swap3DrawStream]

theorem password_list_id (n : Nat) :
    password_list (idDrawStream n) = ['a', 'A', '0', '!'] := by
  rw [password_list, idDrawStream_lt n 0 (by omega), idDrawStream_lt n 1 (by omega),
    idDrawStream_lt n 2 (by omega), idDrawStream_lt n 3 (by omega)]
  rfl

theorem password_list_swap3 (n : Nat) :
    password_list (swap3DrawStream n) = ['a', 'A', '0', '!'] := by
  rw [password_list, swap3DrawStream_ne n 0 (by omega), swap3DrawStream_ne n 1 (by omega),
    swap3DrawStream_ne n 2 (by omega), swap3DrawStream_ne n 3 (by omega),
    idDrawStream_lt n 0 (by omega), idDrawStream_lt n 1 (by omega),
    idDrawStream_lt n 2 (by omega), idDrawStream_lt n 3 (by omega)]
  rfl

theorem fill_chars_zero_draws (r : Nat → Nat) (n : Nat)
    (hr : ∀ i, i < n → r (4 + i) = 0) :
    fill_chars r n = List.replicate n 'a' := by
  have hmem : ∀ b ∈ fill_chars r n, b = 'a' := by
    intro b hb
    simp only [fill_chars, List.mem_map, List.mem_range] at hb
    obtain ⟨i, hi, rfl⟩ := hb
    rw [hr i hi]
    rfl
  have hlen := length_fill_chars r n
  calc fill_chars r n = List.replicate (fill_chars r n).length 'a' :=
        List.eq_replicate_of_mem hmem
    _ = List.replicate n 'a' := by rw [hlen]

/-- C8: for every fixed length L of at least 4, the shuffle is effective:
there are draw outcomes under which the guaranteed punctuation character
lands at different positions, while both outputs use the same characters. -/
theorem shuffle_positions_vary (L : Int) (h : 4 ≤ L) :
    ∃ r1 r2 : Nat → Nat, ∃ s1 s2 : String,
      generate_secure_password r1 L = some s1 ∧
      generate_secure_password r2 L = some s2 ∧
      List.Perm s1.toList s2.toList ∧
      choice (r1 3) special_chars = '!' ∧ choice (r2 3) special_chars = '!' ∧
      s1.toList.indexOf '!' ≠ s2.toList.indexOf '!' := by
  obtain ⟨n, hn⟩ : ∃ n : Nat, (L - 4).toNat = n := ⟨_, rfl⟩
  have hfull : ∀ rest : List Char,
      ('a' :: 'A' :: '0' :: '!' :: rest).length = rest.length + 4 := by
    intro rest
    simp
  refine ⟨idDrawStream n, swap3DrawStream n,
    String.mk ('a' :: 'A' :: '0' :: '!' :: List.replicate n 'a'),
    String.mk ('!' :: 'A' :: '0' :: 'a' :: List.replicate n 'a'),
    ?_, ?_, ?_, ?_, ?_, ?_⟩
  · rw [generate_eq _ L (by omega), hn]
    have hlist : password_list (idDrawStream n) ++ fill_chars (idDrawStream n) n =
        'a' :: 'A' :: '0' :: '!' :: List.replicate n 'a' := by
      rw [password_list_id, fill_chars_zero_draws _ n
        (fun i hi => idDrawStream_lt n (4 + i) (by omega))]
      rfl
    rw [hlist, shuffle, hfull, List.length_replicate,
      show n + 4 - 1 = n + 3 by omega]
    rw [fyAux_id (n + 3) (4 + n) _ _ (by rw [hfull, List.length_replicate]; omega)
      (fun t ht => by
        rw [idDrawStream_ge n (4 + n + t) (by omega)]
        omega)]
  · rw [generate_eq _ L (by omega), hn]
    have hlist : password_list (swap3DrawStream n) ++ fill_chars (swap3DrawStream n) n =
        'a' :: 'A' :: '0' :: '!' :: List.replicate n 'a' := by
      rw [password_list_swap3, fill_chars_zero_draws _ n
        (fun i hi => by
          rw [swap3DrawStream_ne n (4 + i) (by omega),
            idDrawStream_lt n (4 + i) (by omega)])]
      rfl
    rw [hlist, shuffle, hfull, List.length_replicate,
      show n + 4 - 1 = n + 3 by omega]
    rw [fyAux_swap3 (n + 3) (4 + n) _ _ (by rw [hfull, List.length_replicate]; omega)
      (by omega)
      (fun t ht => by
        rw [swap3DrawStream_ne n (4 + n + t) (by omega),
          idDrawStream_ge n (4 + n + t) (by omega)]
        omega)
      (by
        have hidx : 4 + n + (n + 3 - 3) = (4 + n) + n := by omega
        rw [hidx, swap3DrawStream_hit])
      (fun t ht1 ht2 => by
        rw [swap3DrawStream_ne n (4 + n + t) (by omega),
          idDrawStream_ge n (4 + n + t) (by omega)]
        omega)]
    rfl
  · show List.Perm ('a' :: 'A' :: '0' :: '!' :: List.replicate n 'a')
      ('!' :: 'A' :: '0' :: 'a' :: List.replicate n 'a')
    have h3 : 3 < ('a' :: 'A' :: '0' :: '!' :: List.replicate n 'a').length := by
      rw [hfull, List.length_replicate]
      omega
    have h0 : 0 < ('a' :: 'A' :: '0' :: '!' :: List.replicate n 'a').length := by
      omega
    exact (listSwap_perm _ 3 0 h3 h0).symm
  · rw [idDrawStream_lt n 3 (by omega)]
    decide
  · rw [swap3DrawStream_ne n 3 (by omega), idDrawStream_lt n 3 (by omega)]
    decide
  · show List.indexOf '!' ('a' :: 'A' :: '0' :: '!' :: List.replicate n 'a') ≠
      List.indexOf '!' ('!' :: 'A' :: '0' :: 'a' :: List.replicate n 'a')
    simp [List.indexOf_cons]

/-- Witness for C8 at length 5. -/
theorem shuffle_positions_vary_witness :
    ∃ r1 r2 : Nat → Nat, ∃ s1 s2 : String,
      generate_secure_password r1 5 = some s1 ∧
      generate_secure_password r2 5 = some s2 ∧
      List.Perm s1.toList s2.toList ∧
      choice (r1 3) special_chars = '!' ∧ choice (r2 3) special_chars = '!' ∧
      s1.toList.indexOf '!' ≠ s2.toList.indexOf '!' :=
  shuffle_positions_vary 5 (by decide)

/-- Code points that Python `str.strip()` (with no argument) removes:
the Unicode whitespace characters, namely 9-13, 28-32, 133, 160, 5760,
8192-8202, 8232, 8233, 8239, 8287 and 12288. -/
def whitespace_codes : List Nat :=
  [9, 10, 11, 12, 13, 28, 29, 30, 31, 32, 133, 160, 5760] ++
  (List.range 11).map (fun i => 8192 + i) ++
  [8232, 8233, 8239, 8287, 12288]

/-- Whether `str.strip()` would remove the character `c`. -/
def isPySpace (c : Char) : Bool := whitespace_codes.contains c.toNat

/-- Model of Python `text.strip()` as used by the clipboard fallback
(lines 64, 70, 77 and 83 of the source): remove leading and trailing
whitespace. -/
def pyStrip (s : String) : String :=
  String.mk (((s.toList.dropWhile isPySpace).reverse.dropWhile isPySpace).reverse)

theorem all_chars_not_space : ∀ c ∈ all_chars, isPySpace c = false := by decide

theorem dropWhile_eq_self_of_no_space (l : List Char)
    (h : ∀ c ∈ l, isPySpace c = false) : l.dropWhile isPySpace = l := by
  cases l with
  | nil => rfl
  | cons a t => simp [List.dropWhile_cons, h a (List.mem_cons_self a t)]

/-- C10: generated passwords contain no whitespace, so the stripping done
by the clipboard fallback leaves every generated password unchanged: the
text handed to the clipboard command equals the password. -/
theorem generate_strip_unchanged (r : Nat → Nat) (L : Int) (s : String)
    (hs : generate_secure_password r L = some s) : pyStrip s = s := by
  have hmem := generate_mem_all_chars r L s hs
  have h1 : ∀ c ∈ s.toList, isPySpace c = false :=
    fun c hc => all_chars_not_space c (hmem c hc)
  have h2 : ∀ c ∈ s.toList.reverse, isPySpace c = false :=
    fun c hc => h1 c (List.mem_reverse.mp hc)
  rw [pyStrip, dropWhile_eq_self_of_no_space _ h1,
    dropWhile_eq_self_of_no_space _ h2, List.reverse_reverse]
  cases s
  rfl

/-- Witness for C10 at length 4 with the all-zeros draw stream. -/
theorem generate_strip_unchanged_witness : pyStrip "A0!a" = "A0!a" :=
  generate_strip_unchanged (fun _ => 0) 4 "A0!a" (by decide)

end PasswordGenerator
